import Mathlib

/-!
# Verification of the vector-meanings RAG core

Shallow embedding, in Lean 4, of the algorithmic heart of the
`vector-meanings` repository: text chunking, the embedding LRU/TTL cache,
the request deduplicator, index recommendation, token-budgeted context
truncation, the semantic-search pipeline, result diversification, and
chain-of-thought answer parsing.

Texts are modelled as `List Char` (the examples in the repository are
ASCII, where JavaScript UTF-16 code units coincide with characters).
JavaScript numbers holding integer indices are modelled as `Nat`/`Int`.
Loops that the source runs without a termination proof are modelled with
explicit fuel and return `Option`, `none` meaning the fuel ran out.
-/

namespace VectorMeanings

/-! ## JavaScript string helpers -/

/-- Whitespace recognised by `String.prototype.trim` (ASCII part). -/
def jsWhitespace (c : Char) : Bool :=
  c = ' ' ∨ c = '\n' ∨ c = '\t' ∨ c = '\r'

/-- JavaScript `s.trim()`: drop whitespace from both ends. -/
def jsTrim (s : List Char) : List Char :=
  ((s.dropWhile jsWhitespace).reverse.dropWhile jsWhitespace).reverse

/-- JavaScript `s.slice(a, b)` for numbers `a`, `b` (negative indices count
from the end, everything is clamped to `[0, s.length]`). -/
def jsSlice (s : List Char) (a b : Int) : List Char :=
  let len : Int := s.length
  let na : Int := if a < 0 then max (len + a) 0 else min a len
  let nb : Int := if b < 0 then max (len + b) 0 else min b len
  if na < nb then (s.drop na.toNat).take (nb - na).toNat else []

/-- Does `pat` occur in `s` starting at position `j`? -/
def occursAt (pat s : List Char) (j : Nat) : Bool :=
  pat.isPrefixOf (s.drop j)

/-- JavaScript `s.indexOf(pat)`: index of the first occurrence of `pat`, if any. -/
def jsIndexOf (pat : List Char) : List Char → Option Nat
  | [] => if pat = [] then some 0 else none
  | c :: rest =>
    if pat.isPrefixOf (c :: rest) then some 0
    else (jsIndexOf pat rest).map (· + 1)

/-- Search positions `j, j-1, ..., 0` for an occurrence of `pat`. -/
def lastOccAux (pat s : List Char) : Nat → Option Nat
  | 0 => if occursAt pat s 0 then some 0 else none
  | j + 1 => if occursAt pat s (j + 1) then some (j + 1) else lastOccAux pat s j

/-- JavaScript `s.lastIndexOf(pat, from)`: the result is `-1` when no
occurrence starts at an index `≤ from` (a negative `from` clamps to `0`). -/
def jsLastIndexOf (pat s : List Char) (fro : Int) : Int :=
  let f : Nat := (min (max fro 0) (s.length : Int)).toNat
  match lastOccAux pat s f with
  | some j => (j : Int)
  | none => -1

/-! ## Fixed-size chunking, simple variant

`IngestionService.chunkText` (final-project/src/lib/ingestion.ts) and
`fixedSizeChunk` of code-examples/step-05-storage are the same loop:

    while (start < text.length) {
      const end = Math.min(start + size, text.length);
      chunks.push(text.slice(start, end));
      start += size - overlap;
    }

The loop variable is modelled with fuel; `size - overlap` is `Nat`
subtraction, which agrees with the JavaScript expression whenever
`overlap ≤ size` (the only regime any claim quantifies over).  Each
produced chunk is kept together with its start offset. -/

def chunkTextGo (text : List Char) (size overlap : Nat) :
    Nat → Nat → Option (List (Nat × List Char))
  | 0, _ => none
  | fuel + 1, start =>
    if start < text.length then
      let e := min (start + size) text.length
      (chunkTextGo text size overlap fuel (start + (size - overlap))).map
        (fun rest => (start, (text.drop start).take (e - start)) :: rest)
    else
      some []

/-- The loop of `IngestionService.chunkText`, with enough fuel for every terminating
run of the source loop. -/
def chunkText (text : List Char) (size overlap : Nat) :
    Option (List (Nat × List Char)) :=
  chunkTextGo text size overlap (text.length + 1) 0

/-! ## Fixed-size chunking, boundary-snapping variant (README)

`fixedSizeChunk` of src/lib/chunking/fixed-size.ts (quoted in the README)
additionally snaps the chunk end back to a sentence / newline / word
boundary in the last 20% of the window, trims the chunk, drops chunks
shorter than `minChunkSize`, and carries the guard

    startIndex = endIndex - chunkOverlap;
    if (startIndex >= endIndex) { startIndex = endIndex; }

Indices are modelled as `Int` because `endIndex - chunkOverlap` can go
negative in JavaScript.  `minEnd = startIndex + chunkSize * 0.8` is
compared after scaling by 5 (`5*j > 5*start + 4*size`); for the integer
operands at play the double-precision product `chunkSize * 0.8` rounds to
a value on the same side of every integer as the exact `4/5 * chunkSize`,
so the scaled comparison is exactly the source's.  The string id derived
from `documentId` and the chunk index is omitted: no claim mentions it. -/

structure FSChunk where
  content : List Char
  startIndex : Int
  endIndex : Int
  chunkIndex : Nat
  totalChunks : Nat
  deriving Repr, DecidableEq

def fixedSizeGo (text : List Char) (size overlap minChunk : Nat) :
    Nat → Int → Nat → List FSChunk → Option (List FSChunk)
  | 0, _, _, _ => none
  | fuel + 1, start, idx, acc =>
    if start < (text.length : Int) then
      let end0 : Int := min (start + (size : Int)) (text.length : Int)
      let endIdx : Int :=
        if end0 < (text.length : Int) then
          let lastPeriod := jsLastIndexOf ['.', ' '] text end0
          let lastNewline := jsLastIndexOf ['\n'] text end0
          let lastSpace := jsLastIndexOf [' '] text end0
          if 5 * lastPeriod > 5 * start + 4 * (size : Int) then lastPeriod + 1
          else if 5 * lastNewline > 5 * start + 4 * (size : Int) then lastNewline
          else if 5 * lastSpace > 5 * start + 4 * (size : Int) then lastSpace
          else end0
        else end0
      let content := jsTrim (jsSlice text start endIdx)
      let keep := minChunk ≤ content.length
      let acc2 := if keep then acc ++ [⟨content, start, endIdx, idx, 0⟩] else acc
      let idx2 := if keep then idx + 1 else idx
      let next0 : Int := endIdx - (overlap : Int)
      let next : Int := if next0 ≥ endIdx then endIdx else next0
      fixedSizeGo text size overlap minChunk fuel next idx2 acc2
    else
      some (acc.map fun c => { c with totalChunks := acc.length })

/-- The README `fixedSizeChunk` with explicit fuel; `none` means the source loop has
not finished within `fuel` iterations. -/
def fixedSizeChunk (text : List Char) (size overlap minChunk fuel : Nat) :
    Option (List FSChunk) :=
  fixedSizeGo text size overlap minChunk fuel 0 0 []

/-! ## Termination analysis facts for chunking -/

/-- On the text `"AB"` with `chunkSize = 1 = chunkOverlap` the loop body of
the README `fixedSizeChunk` maps loop state `startIndex = 0` back to
`startIndex = 0` (the guard `startIndex >= endIndex` does not fire because
`0 < 1`), pushing one more copy of the chunk `"A"` each time. -/
theorem fixedSizeGo_AB_stuck (fuel : Nat) :
    ∀ idx acc, fixedSizeGo ['A', 'B'] 1 1 0 fuel 0 idx acc = none := by
  induction fuel with
  | zero => intro idx acc; rfl
  | succ n ih =>
    intro idx acc
    have h : fixedSizeGo ['A', 'B'] 1 1 0 (n + 1) 0 idx acc
        = fixedSizeGo ['A', 'B'] 1 1 0 n 0 (idx + 1)
            (acc ++ [⟨['A'], 0, 1, idx, 0⟩]) := rfl
    rw [h]
    exact ih (idx + 1) _

/-- C1: the claim says fixed-size chunking terminates for every
configuration with `chunkSize > 0`, including `chunkOverlap ≥ chunkSize`,
thanks to the forward-progress guard.  The code's guard
`if (startIndex >= endIndex) startIndex = endIndex` can never fire when
`chunkOverlap > 0` (then `startIndex = endIndex - chunkOverlap < endIndex`),
so on text `"AB"` with `chunkSize = 1`, `chunkOverlap = 1`,
`minChunkSize = 0` the loop never leaves `startIndex = 0`: no amount of
fuel makes the embedded loop finish.  The claim is right about the intent
(the comment in the source reads `// Prevent infinite loop`) and the code
is wrong. -/
theorem C1_fixedSizeChunk_diverges (fuel : Nat) :
    fixedSizeChunk ['A', 'B'] 1 1 0 fuel = none :=
  fixedSizeGo_AB_stuck fuel 0 []

/-- Loop invariant for `chunkTextGo` when `overlap < size`: the loop
finishes within any fuel exceeding the remaining text length, the head
chunk starts at the current position, consecutive starts advance by
exactly `size - overlap`, and every remaining text position is covered by
some produced chunk. -/
theorem chunkTextGo_inv (text : List Char) (size overlap : Nat)
    (hov : overlap < size) :
    ∀ fuel start, text.length - start < fuel →
    ∃ l, chunkTextGo text size overlap fuel start = some l ∧
      (l ≠ [] → (l.getD 0 (0, ([] : List Char))).1 = start) ∧
      (∀ k, k + 1 < l.length →
        (l.getD (k + 1) (0, [])).1 = (l.getD k (0, [])).1 + (size - overlap)) ∧
      (∀ p, start ≤ p → p < text.length →
        ∃ pr ∈ l, pr.1 ≤ p ∧ p < pr.1 + pr.2.length) := by
  intro fuel
  induction fuel with
  | zero => intro start h; exact absurd h (Nat.not_lt_zero _)
  | succ f ih =>
    intro start hlt
    by_cases hs : start < text.length
    · obtain ⟨rest, hrest, hhead, hstepd, hcov⟩ :=
        ih (start + (size - overlap)) (by omega)
      refine ⟨(start,
          (text.drop start).take (min (start + size) text.length - start)) :: rest,
        ?_, ?_, ?_, ?_⟩
      · simp only [chunkTextGo, if_pos hs, hrest, Option.map_some']
      · intro _
        simp
      · intro k hk
        match k with
        | 0 =>
          have hne : rest ≠ [] := by
            simp only [List.length_cons] at hk
            exact List.ne_nil_of_length_pos (by omega)
          simpa using hhead hne
        | Nat.succ k =>
          simp only [List.getD_cons_succ]
          exact hstepd k (by simpa using hk)
      · intro p hsp hpl
        have he1 : start ≤ min (start + size) text.length :=
          le_min (by omega) (by omega)
        have he2 : min (start + size) text.length ≤ text.length :=
          min_le_right _ _
        have hclen : ((text.drop start).take
            (min (start + size) text.length - start)).length
            = min (start + size) text.length - start := by
          simp only [List.length_take, List.length_drop]
          omega
        by_cases hpe : p < min (start + size) text.length
        · exact ⟨_, List.mem_cons_self _ _, by simp [hclen]; omega⟩
        · have he : min (start + size) text.length = start + size := by
            rcases min_cases (start + size) text.length with ⟨h1, h2⟩ | ⟨h1, h2⟩ <;>
              omega
          obtain ⟨pr, hmem, hb⟩ := hcov p (by omega) hpl
          exact ⟨pr, List.mem_cons_of_mem _ hmem, hb⟩
    · refine ⟨[], ?_, by simp, by simp, ?_⟩
      · simp only [chunkTextGo, if_neg hs]
      · intro p hsp hpl
        omega

/-- C2: for every text and every configuration with `0 ≤ overlap < size`,
`chunkText` (the simple fixed-size chunker of `IngestionService.chunkText`
and step-05's `fixedSizeChunk`) terminates with chunks whose start offsets
advance by exactly the positive step `size - overlap` (hence are strictly
increasing) and whose union covers every position of the text; and
chunking `"ABCDEFGHIJ"` with `size = 4`, `overlap = 1` yields exactly
`["ABCD", "DEFG", "GHIJ", "J"]` at starts `[0, 3, 6, 9]`. -/
theorem C2_chunkText_spec :
    (∀ (text : List Char) (size overlap : Nat), overlap < size →
      ∃ l, chunkText text size overlap = some l ∧
        0 < size - overlap ∧
        (∀ k, k + 1 < l.length →
          (l.getD (k + 1) (0, [])).1 = (l.getD k (0, [])).1 + (size - overlap)) ∧
        (∀ p, p < text.length → ∃ pr ∈ l, pr.1 ≤ p ∧ p < pr.1 + pr.2.length)) ∧
    chunkText "ABCDEFGHIJ".toList 4 1 =
      some [(0, "ABCD".toList), (3, "DEFG".toList),
            (6, "GHIJ".toList), (9, "J".toList)] := by
  constructor
  · intro text size overlap hov
    obtain ⟨l, hl, _, hstep, hcov⟩ :=
      chunkTextGo_inv text size overlap hov (text.length + 1) 0 (by omega)
    exact ⟨l, hl, by omega, hstep, fun p hp => hcov p (Nat.zero_le _) hp⟩
  · rfl

/-- Witness for C2 at the concrete input `"XY"`, `size = 2`, `overlap = 1`:
the hypothesis `1 < 2` holds and the chunker succeeds. -/
theorem C2_chunkText_spec_witness :
    (chunkText "XY".toList 2 1).isSome = true := by
  obtain ⟨l, hl, -⟩ := C2_chunkText_spec.1 "XY".toList 2 1 (by decide)
  rw [hl]
  rfl

/-! ## JavaScript `Map` as an insertion-ordered association list

A JavaScript `Map` iterates in insertion order; `set` on an existing key
replaces the value in place, `set` on a fresh key appends, `delete`
removes the entry.  The cache and the request deduplicator both rely on
this order (the "first key" is the eviction victim). -/

def aGet {α : Type} : List (String × α) → String → Option α
  | [], _ => none
  | p :: rest, k => if p.1 = k then some p.2 else aGet rest k

def aSet {α : Type} : List (String × α) → String → α → List (String × α)
  | [], k, v => [(k, v)]
  | p :: rest, k, v => if p.1 = k then (k, v) :: rest else p :: aSet rest k v

def aDelete {α : Type} : List (String × α) → String → List (String × α)
  | [], _ => []
  | p :: rest, k => if p.1 = k then aDelete rest k else p :: aDelete rest k

theorem aGet_aSet_self {α : Type} (l : List (String × α)) (k : String) (v : α) :
    aGet (aSet l k v) k = some v := by
  induction l with
  | nil => simp [aGet, aSet]
  | cons p rest ih =>
    by_cases h : p.1 = k
    · simp [aGet, aSet, h]
    · simp [aGet, aSet, h, ih]

theorem aGet_aDelete_self {α : Type} (l : List (String × α)) (k : String) :
    aGet (aDelete l k) k = none := by
  induction l with
  | nil => simp [aGet, aDelete]
  | cons p rest ih =>
    by_cases h : p.1 = k
    · simp [aDelete, h, ih]
    · simp [aGet, aDelete, h, ih]

theorem aSet_of_aGet_none {α : Type} (l : List (String × α)) (k : String)
    (v : α) (h : aGet l k = none) : aSet l k v = l ++ [(k, v)] := by
  induction l with
  | nil => simp [aSet]
  | cons p rest ih =>
    by_cases hp : p.1 = k
    · simp [aGet, hp] at h
    · simp only [aGet, if_neg hp] at h
      simp [aSet, hp, ih h]

theorem length_aSet_le {α : Type} (l : List (String × α)) (k : String) (v : α) :
    (aSet l k v).length ≤ l.length + 1 := by
  induction l with
  | nil => simp [aSet]
  | cons p rest ih =>
    by_cases h : p.1 = k
    · simp [aSet, h]
    · simp only [aSet, if_neg h, List.length_cons]
      omega

theorem length_aDelete_le {α : Type} (l : List (String × α)) (k : String) :
    (aDelete l k).length ≤ l.length := by
  induction l with
  | nil => simp [aDelete]
  | cons p rest ih =>
    by_cases h : p.1 = k
    · simp only [aDelete, if_pos h, List.length_cons]
      omega
    · simp only [aDelete, if_neg h, List.length_cons]
      omega

theorem length_aDelete_lt {α : Type} (l : List (String × α)) (k : String)
    (e : α) (h : aGet l k = some e) : (aDelete l k).length < l.length := by
  induction l with
  | nil => simp [aGet] at h
  | cons p rest ih =>
    by_cases hp : p.1 = k
    · simp only [aDelete, if_pos hp, List.length_cons]
      have := length_aDelete_le rest k
      omega
    · simp only [aGet, if_neg hp] at h
      simp only [aDelete, if_neg hp, List.length_cons]
      exact Nat.succ_lt_succ (ih h)

/-! ## EmbeddingCache (final-project 08-optimization.md)

`generateKey` is the 31x string hash over UTF-16 code units, wrapped to a
signed 32-bit integer after every step (`hash = hash & hash`), formatted
as `emb_<hash>_<length>`.  `get` checks TTL first (`Date.now() -
entry.timestamp > this.ttlMs`, strict), evicting on expiry, then bumps the
hit counter and re-inserts the entry at the back of the map (delete +
set).  `set` first evicts the map's first key when `size >= maxSize`
(`firstKey` is always a truthy nonempty string here), then inserts.
Embedding vectors (`number[]`) are modelled as `List ℚ`; the wall clock
(`Date.now()`) is an explicit `now : Nat` argument. -/

def wrap32 (x : Int) : Int := (x + 2 ^ 31) % 2 ^ 32 - 2 ^ 31

def hashStep (h : Int) (c : Nat) : Int := wrap32 (wrap32 (h * 32) - h + c)

def jsHash (text : List Char) : Int :=
  text.foldl (fun h c => hashStep h c.toNat) 0

def generateKey (text : List Char) : String :=
  "emb_" ++ toString (jsHash text) ++ "_" ++ toString text.length

structure CacheEntry where
  embedding : List ℚ
  timestamp : Nat
  hits : Nat
  deriving Repr, DecidableEq

structure EmbeddingCache where
  maxSize : Nat
  ttlMs : Nat
  entries : List (String × CacheEntry)
  deriving Repr, DecidableEq

def emptyCache (maxSize ttlMs : Nat) : EmbeddingCache :=
  { maxSize := maxSize, ttlMs := ttlMs, entries := [] }

def cacheGet (c : EmbeddingCache) (now : Nat) (text : List Char) :
    Option (List ℚ) × EmbeddingCache :=
  let key := generateKey text
  match aGet c.entries key with
  | none => (none, c)
  | some e =>
    if c.ttlMs < now - e.timestamp then
      (none, { c with entries := aDelete c.entries key })
    else
      let e2 : CacheEntry := { e with hits := e.hits + 1 }
      (some e.embedding,
        { c with entries := aSet (aDelete c.entries key) key e2 })

def cacheSet (c : EmbeddingCache) (now : Nat) (text : List Char)
    (v : List ℚ) : EmbeddingCache :=
  let key := generateKey text
  let entries1 :=
    if c.maxSize ≤ c.entries.length then
      match c.entries with
      | [] => []
      | _ :: rest => rest
    else c.entries
  { c with entries := aSet entries1 key { embedding := v, timestamp := now, hits := 0 } }

def cacheClear (c : EmbeddingCache) : EmbeddingCache :=
  { c with entries := [] }

/-- C4 counterexample: with `ttlMs = 10`, set at time `0` and get at time
`10` — exactly `ttlMs` elapsed.  The claim says that once `ttlMs` has
elapsed the get is a miss, but the code expires an entry only when
strictly more than `ttlMs` has elapsed (`Date.now() - entry.timestamp >
this.ttlMs`), so the get still returns the value. -/
theorem C4_counterexample_ttl_boundary :
    (cacheGet (cacheSet (emptyCache 2 10) 0 ['a'] [1]) 10 ['a']).1 = some [1] := by
  rfl

/-- C4 (amended): after `set(t, v)` at time `s`, `get(t)` at time `now`
returns `v` whenever at most `ttlMs` has elapsed, and returns a miss and
evicts the entry whenever strictly more than `ttlMs` has elapsed; a
successful `get` leaves the entry at the back of the map (most recently
used); and `set` on a cache at `maxSize` capacity first evicts the entry
at the front of the map (the least recently used) and then appends the
new entry. -/
theorem C4_cache_ttl_lru :
    (∀ (c : EmbeddingCache) (s now : Nat) (t : List Char) (v : List ℚ),
      now - s ≤ c.ttlMs →
      (cacheGet (cacheSet c s t v) now t).1 = some v) ∧
    (∀ (c : EmbeddingCache) (s now : Nat) (t : List Char) (v : List ℚ),
      c.ttlMs < now - s →
      (cacheGet (cacheSet c s t v) now t).1 = none ∧
      aGet (cacheGet (cacheSet c s t v) now t).2.entries (generateKey t) = none) ∧
    (∀ (c : EmbeddingCache) (now : Nat) (t : List Char) (v : List ℚ)
      (c2 : EmbeddingCache),
      cacheGet c now t = (some v, c2) →
      ∃ e : CacheEntry, c2.entries.getLast? = some (generateKey t, e) ∧
        e.embedding = v) ∧
    (∀ (hk : String) (e0 : CacheEntry) (rest : List (String × CacheEntry))
      (maxSize ttl s : Nat) (t : List Char) (v : List ℚ),
      rest.length + 1 = maxSize → aGet rest (generateKey t) = none →
      (cacheSet ⟨maxSize, ttl, (hk, e0) :: rest⟩ s t v).entries
        = rest ++ [(generateKey t, ⟨v, s, 0⟩)]) := by
  refine ⟨?_, ?_, ?_, ?_⟩
  · intro c s now t v h
    simp only [cacheSet, cacheGet, aGet_aSet_self]
    rw [if_neg (by omega)]
  · intro c s now t v h
    simp only [cacheSet, cacheGet, aGet_aSet_self]
    rw [if_pos (by simpa using h)]
    exact ⟨rfl, aGet_aDelete_self _ _⟩
  · intro c now t v c2 h
    simp only [cacheGet] at h
    split at h
    · simp at h
    · split at h
      · simp at h
      · rename_i e heq hexp
        have h1 : some e.embedding = some v := congrArg Prod.fst h
        have h2 := congrArg EmbeddingCache.entries (congrArg Prod.snd h)
        refine ⟨{ e with hits := e.hits + 1 }, ?_, Option.some.inj h1⟩
        rw [← h2,
          aSet_of_aGet_none _ _ _ (aGet_aDelete_self c.entries (generateKey t)),
          List.getLast?_concat]
  · intro hk e0 rest maxSize ttl s t v hlen hfree
    simp only [cacheSet, List.length_cons]
    rw [if_pos (by omega)]
    exact aSet_of_aGet_none rest (generateKey t) _ hfree

/-- Witness for C4: with `ttlMs = 10`, set at time `0`, get at time `5`
(at most `ttlMs` elapsed) returns the stored value. -/
theorem C4_cache_ttl_lru_witness :
    5 - 0 ≤ (emptyCache 2 10).ttlMs ∧
    (cacheGet (cacheSet (emptyCache 2 10) 0 ['a'] [1]) 5 ['a']).1 = some [1] :=
  ⟨by decide, C4_cache_ttl_lru.1 (emptyCache 2 10) 0 5 ['a'] [1] (by decide)⟩

/-! ## C10: the cache never holds more than `maxSize` entries -/

/-- One public cache operation (`get`, `set` or `clear`), with the wall
clock passed explicitly. -/
inductive CacheOp where
  | get (now : Nat) (text : List Char)
  | set (now : Nat) (text : List Char) (v : List ℚ)
  | clear

def applyCacheOp (c : EmbeddingCache) : CacheOp → EmbeddingCache
  | .get now t => (cacheGet c now t).2
  | .set now t v => cacheSet c now t v
  | .clear => cacheClear c

def runCacheOps (c : EmbeddingCache) (ops : List CacheOp) : EmbeddingCache :=
  ops.foldl applyCacheOp c

theorem applyCacheOp_maxSize (c : EmbeddingCache) (op : CacheOp) :
    (applyCacheOp c op).maxSize = c.maxSize := by
  cases op with
  | get now t =>
    simp only [applyCacheOp, cacheGet]
    split
    · rfl
    · split <;> rfl
  | set now t v => rfl
  | clear => rfl

theorem applyCacheOp_length_le (c : EmbeddingCache) (op : CacheOp)
    (hmax : 1 ≤ c.maxSize) (h : c.entries.length ≤ c.maxSize) :
    (applyCacheOp c op).entries.length ≤ c.maxSize := by
  cases op with
  | get now t =>
    simp only [applyCacheOp, cacheGet]
    split
    · exact h
    · rename_i e heq
      split
      · exact le_trans (length_aDelete_le _ _) h
      · rw [aSet_of_aGet_none _ _ _
          (aGet_aDelete_self c.entries (generateKey t))]
        have := length_aDelete_lt c.entries (generateKey t) e heq
        simp only [List.length_append, List.length_cons, List.length_nil]
        omega
  | set now t v =>
    simp only [applyCacheOp, cacheSet]
    split
    · rename_i hcap
      match hent : c.entries with
      | [] => simp [hent] at hcap; omega
      | hd :: rest =>
        have := length_aSet_le rest (generateKey t)
          (⟨v, now, 0⟩ : CacheEntry)
        simp only [hent, List.length_cons] at h ⊢
        omega
    · rename_i hcap
      have := length_aSet_le c.entries (generateKey t)
        (⟨v, now, 0⟩ : CacheEntry)
      omega
  | clear => simp [applyCacheOp, cacheClear]

theorem runCacheOps_invariant (ops : List CacheOp) :
    ∀ c : EmbeddingCache, 1 ≤ c.maxSize → c.entries.length ≤ c.maxSize →
    (runCacheOps c ops).maxSize = c.maxSize ∧
    (runCacheOps c ops).entries.length ≤ c.maxSize := by
  induction ops with
  | nil => intro c _ h; exact ⟨rfl, h⟩
  | cons op rest ih =>
    intro c hmax h
    have hstep := applyCacheOp_length_le c op hmax h
    have hms := applyCacheOp_maxSize c op
    have := ih (applyCacheOp c op) (hms ▸ hmax) (hms ▸ hstep)
    exact ⟨hms ▸ this.1, hms ▸ this.2⟩

/-- C10: starting from a cache constructed with capacity `maxSize ≥ 1`,
after any sequence of `get`, `set` and `clear` operations the number of
stored entries never exceeds `maxSize`: `set` evicts before inserting
whenever the map is at (or beyond) capacity, and no other operation grows
the map. -/
theorem C10_cache_size_invariant (maxSize ttlMs : Nat) (ops : List CacheOp)
    (hmax : 1 ≤ maxSize) :
    (runCacheOps (emptyCache maxSize ttlMs) ops).entries.length ≤ maxSize :=
  (runCacheOps_invariant ops (emptyCache maxSize ttlMs) hmax (Nat.zero_le _)).2

/-- Witness for C10: capacity 1, three operations (two sets of distinct
texts and a get). -/
theorem C10_cache_size_invariant_witness :
    1 ≤ 1 ∧
    (runCacheOps (emptyCache 1 10)
      [CacheOp.set 0 ['a'] [1], CacheOp.set 1 ['b'] [2],
       CacheOp.get 2 ['b']]).entries.length ≤ 1 :=
  ⟨by decide,
   C10_cache_size_invariant 1 10
    [CacheOp.set 0 ['a'] [1], CacheOp.set 1 ['b'] [2], CacheOp.get 2 ['b']]
    (by decide)⟩

/-! ## RequestDeduplicator (final-project 08-optimization.md)

`embed(text)` first looks `text` up in the `inFlightRequests` map and
returns the stored promise if present; otherwise it starts the underlying
embedding computation, stores the new promise under `text`, and returns
it.  Both the success (`.then`) and failure (`.catch`) handlers delete
the map entry when the computation settles; a failure is rethrown, never
cached.  JavaScript runs `embed` bodies atomically (the only suspension
point is the underlying call), so a burst of concurrent callers is a
sequence of `dedupEmbed` steps with no settle in between, and a promise
settling is a `dedupSettle` step.  Promises are modelled by identifiers
(`Nat`); callers holding the same identifier await the same promise and
therefore receive the same result or the same error.  `computeLog`
records each underlying embedding computation ever started, in order. -/

structure DedupState where
  inFlight : List (String × Nat)
  nextId : Nat
  computeLog : List String
  deriving Repr, DecidableEq

def dedupEmbed (s : DedupState) (text : String) : Nat × DedupState :=
  match aGet s.inFlight text with
  | some pid => (pid, s)
  | none =>
    (s.nextId,
      { inFlight := aSet s.inFlight text s.nextId,
        nextId := s.nextId + 1,
        computeLog := s.computeLog ++ [text] })

/-- The settle handler; `success` is ignored because the `.then` and
`.catch` handlers do the same cleanup. -/
def dedupSettle (s : DedupState) (text : String) (_success : Bool) : DedupState :=
  { s with inFlight := aDelete s.inFlight text }

def dedupEmbedMany : DedupState → String → Nat → List Nat × DedupState
  | s, _, 0 => ([], s)
  | s, t, n + 1 =>
    let r1 := dedupEmbed s t
    let r2 := dedupEmbedMany r1.2 t n
    (r1.1 :: r2.1, r2.2)

theorem dedupEmbedMany_inFlight (t : String) (p : Nat) :
    ∀ (n : Nat) (s : DedupState), aGet s.inFlight t = some p →
    dedupEmbedMany s t n = (List.replicate n p, s) := by
  intro n
  induction n with
  | zero => intro s _; rfl
  | succ m ih =>
    intro s h
    simp only [dedupEmbedMany, dedupEmbed, h, ih s h, List.replicate_succ]

/-- C3: while a computation for `t` is in flight, every further call for
`t` returns the same shared promise with no new underlying computation;
five back-to-back calls for the same fresh text start exactly one
underlying computation and hand every caller the same promise; the
in-flight record is removed as soon as the computation settles, the same
way on success and on failure (nothing is cached); and a call after a
settle starts a fresh computation. -/
theorem C3_dedup_single_flight :
    (∀ (s : DedupState) (t : String) (p : Nat),
      aGet s.inFlight t = some p → dedupEmbed s t = (p, s)) ∧
    (∀ (s : DedupState) (t : String),
      aGet s.inFlight t = none →
      (dedupEmbedMany s t 5).1 = List.replicate 5 s.nextId ∧
      (dedupEmbedMany s t 5).2.computeLog = s.computeLog ++ [t]) ∧
    (∀ (s : DedupState) (t : String) (b : Bool),
      aGet (dedupSettle s t b).inFlight t = none ∧
      (dedupSettle s t b).computeLog = s.computeLog ∧
      dedupSettle s t true = dedupSettle s t false) ∧
    (∀ (s : DedupState) (t : String) (b : Bool),
      (dedupEmbed (dedupSettle s t b) t).2.computeLog = s.computeLog ++ [t]) := by
  refine ⟨?_, ?_, ?_, ?_⟩
  · intro s t p h
    simp only [dedupEmbed, h]
  · intro s t h
    have hstep : dedupEmbed s t =
        (s.nextId, ⟨aSet s.inFlight t s.nextId, s.nextId + 1,
          s.computeLog ++ [t]⟩) := by
      simp only [dedupEmbed, h]
    have h4 := dedupEmbedMany_inFlight t s.nextId 4
      ⟨aSet s.inFlight t s.nextId, s.nextId + 1, s.computeLog ++ [t]⟩
      (aGet_aSet_self _ _ _)
    have hm5 : dedupEmbedMany s t 5 =
        (s.nextId :: List.replicate 4 s.nextId,
          ⟨aSet s.inFlight t s.nextId, s.nextId + 1, s.computeLog ++ [t]⟩) := by
      show ((dedupEmbed s t).1 :: (dedupEmbedMany (dedupEmbed s t).2 t 4).1,
            (dedupEmbedMany (dedupEmbed s t).2 t 4).2) = _
      simp only [hstep]
      rw [h4]
    rw [hm5]
    exact ⟨rfl, rfl⟩
  · intro s t b
    exact ⟨aGet_aDelete_self _ _, rfl, rfl⟩
  · intro s t b
    simp only [dedupEmbed, dedupSettle, aGet_aDelete_self]

/-- Witness for C3: five concurrent calls for `"hello"` starting from the
idle deduplicator start exactly one computation and all receive promise
`0`. -/
theorem C3_dedup_single_flight_witness :
    (dedupEmbedMany ⟨[], 0, []⟩ "hello" 5).1 = List.replicate 5 0 ∧
    (dedupEmbedMany ⟨[], 0, []⟩ "hello" 5).2.computeLog = [] ++ ["hello"] :=
  C3_dedup_single_flight.2.1 ⟨[], 0, []⟩ "hello" rfl

/-! ## IndexTuner.recommendConfig (final-project 08-optimization.md)

The thresholds are `rowCount < 1000` (no index), `rowCount < 100000`
(ivfflat with `lists = Math.ceil(Math.sqrt(rowCount))` and `probes =
Math.ceil(Math.sqrt(rowCount) / 10)`), otherwise hnsw with `m = 16`,
`ef_construction = 64`, `ef_search = 40`.  `ceilSqrt` is the exact
ceiling of the square root; in the reachable range (`rowCount < 100000`)
the double-precision `Math.sqrt`/`Math.ceil` compute the same value.
`⌈x / 10⌉ = ⌈⌈x⌉ / 10⌉` turns the probe count into ceiling division. -/

inductive IndexRec where
  | noIndex
  | ivfflat (lists probes : Nat)
  | hnsw (m efConstruction efSearch : Nat)
  deriving Repr, DecidableEq

def ceilSqrt (n : Nat) : Nat :=
  if Nat.sqrt n * Nat.sqrt n = n then Nat.sqrt n else Nat.sqrt n + 1

def recommendConfig (rowCount : Nat) : IndexRec :=
  if rowCount < 1000 then IndexRec.noIndex
  else if rowCount < 100000 then
    IndexRec.ivfflat (ceilSqrt rowCount) ((ceilSqrt rowCount + 9) / 10)
  else IndexRec.hnsw 16 64 40

/-- C5 counterexample: at exactly 100,000 rows — inside the claim's
"1,000 to 100,000" ivfflat range — the code recommends hnsw, because its
ivfflat branch requires `rowCount < 100000` strictly. -/
theorem C5_counterexample_at_100000 :
    recommendConfig 100000 = IndexRec.hnsw 16 64 40 ∧
    recommendConfig 100000 ≠ IndexRec.ivfflat 317 32 := by
  constructor
  · decide
  · decide

theorem ceilSqrt_bounds (n : Nat) (hn : 1 ≤ n) :
    n ≤ ceilSqrt n * ceilSqrt n ∧ (ceilSqrt n - 1) * (ceilSqrt n - 1) < n := by
  have hle : Nat.sqrt n * Nat.sqrt n ≤ n := Nat.sqrt_le n
  have hlt : n < (Nat.sqrt n + 1) * (Nat.sqrt n + 1) := Nat.lt_succ_sqrt n
  have hpos : 0 < Nat.sqrt n := Nat.sqrt_pos.mpr hn
  unfold ceilSqrt
  by_cases h : Nat.sqrt n * Nat.sqrt n = n
  · rw [if_pos h]
    obtain ⟨m, hm⟩ : ∃ m, Nat.sqrt n = m + 1 := ⟨Nat.sqrt n - 1, by omega⟩
    rw [hm] at h ⊢
    have hmlt : m * m < (m + 1) * (m + 1) := by nlinarith
    constructor
    · omega
    · simp only [Nat.add_sub_cancel]
      omega
  · rw [if_neg h]
    constructor
    · omega
    · simp only [Nat.add_sub_cancel]
      omega

/-- The value of `ceilSqrt` is determined by its squeeze bounds. -/
theorem ceilSqrt_eq_of (n l : Nat) (h1 : n ≤ l * l)
    (h2 : (l - 1) * (l - 1) < n) (hn : 1 ≤ n) : ceilSqrt n = l := by
  obtain ⟨hub, hlb⟩ := ceilSqrt_bounds n hn
  by_contra hne
  rcases Nat.lt_or_ge (ceilSqrt n) l with hlt | hge
  · have hc : ceilSqrt n ≤ l - 1 := by omega
    have := Nat.mul_le_mul hc hc
    omega
  · have hgt : l < ceilSqrt n := by omega
    have hc : l ≤ ceilSqrt n - 1 := by omega
    have := Nat.mul_le_mul hc hc
    omega

/-- C5 (amended): below 1,000 rows no index; from 1,000 up to but
excluding 100,000 rows an ivfflat index whose `lists` parameter is the
ceiling of the square root of the row count (so 5,000 rows give
`lists = 71`); and from 100,000 rows on an hnsw index with `m = 16` and
`ef_construction = 64` (so for 150,000 rows). -/
theorem C5_recommendConfig_policy :
    (∀ n, n < 1000 → recommendConfig n = IndexRec.noIndex) ∧
    (∀ n, 1000 ≤ n → n < 100000 →
      ∃ l p, recommendConfig n = IndexRec.ivfflat l p ∧
        n ≤ l * l ∧ (l - 1) * (l - 1) < n) ∧
    (∀ n, 100000 ≤ n → recommendConfig n = IndexRec.hnsw 16 64 40) ∧
    recommendConfig 500 = IndexRec.noIndex ∧
    recommendConfig 5000 = IndexRec.ivfflat 71 8 ∧
    recommendConfig 150000 = IndexRec.hnsw 16 64 40 := by
  have h71 : ceilSqrt 5000 = 71 :=
    ceilSqrt_eq_of 5000 71 (by norm_num) (by norm_num) (by norm_num)
  refine ⟨?_, ?_, ?_, by decide, ?_, by decide⟩
  · intro n h
    simp [recommendConfig, h]
  · intro n h1 h2
    obtain ⟨hub, hlb⟩ := ceilSqrt_bounds n (by omega)
    refine ⟨ceilSqrt n, (ceilSqrt n + 9) / 10, ?_, hub, hlb⟩
    rw [recommendConfig, if_neg (by omega), if_pos h2]
  · intro n h
    rw [recommendConfig, if_neg (by omega), if_neg (by omega)]
  · show recommendConfig 5000 = IndexRec.ivfflat 71 8
    rw [recommendConfig, if_neg (by norm_num), if_pos (by norm_num), h71]

/-- Witness for C5 at 5,000 rows: the hypotheses `1000 ≤ 5000 < 100000`
hold and the recommendation is an ivfflat index whose `lists` squares to
at least 5,000 while `(lists - 1)²` stays below it. -/
theorem C5_recommendConfig_policy_witness :
    1000 ≤ 5000 ∧ 5000 < 100000 ∧
    ∃ l p, recommendConfig 5000 = IndexRec.ivfflat l p ∧
      5000 ≤ l * l ∧ (l - 1) * (l - 1) < 5000 :=
  ⟨by decide, by decide,
   C5_recommendConfig_policy.2.1 5000 (by decide) (by decide)⟩

/-! ## Search data model (part_008)

`StoredVector` rows are projected to the fields the claims touch
(`documentId`, `chunkId`, `content`); similarity scores (JavaScript
floats) are modelled as rationals.  `SearchResultItem.highlights` and the
optional context window are not involved in any claim and are omitted
from the projection. -/

structure StoredDoc where
  documentId : String
  chunkId : String
  content : List Char
  deriving Repr, DecidableEq

structure SearchResultItem where
  document : StoredDoc
  score : ℚ
  rank : Nat
  deriving Repr, DecidableEq

def dummyItem : SearchResultItem :=
  { document := { documentId := "", chunkId := "", content := [] },
    score := 0, rank := 0 }

/-! ## Token estimation and context truncation (part_008, rag/prompts) -/

/-- Token estimate: `Math.ceil(text.length / 4)`. -/
def estimateTokens (text : List Char) : Nat := (text.length + 3) / 4

def truncateContextGo (maxTokens : Nat) :
    List SearchResultItem → Nat → List SearchResultItem
  | [], _ => []
  | c :: rest, currentTokens =>
    if maxTokens < currentTokens + estimateTokens c.document.content then []
    else
      c :: truncateContextGo maxTokens rest
        (currentTokens + estimateTokens c.document.content)

/-- Truncation `truncateContext(chunks, maxTokens)`: greedy inclusion in given order,
`break` at the first chunk that would push the running total past the
budget. -/
def truncateContext (chunks : List SearchResultItem) (maxTokens : Nat) :
    List SearchResultItem :=
  truncateContextGo maxTokens chunks 0

def totalEstTokens (l : List SearchResultItem) : Nat :=
  (l.map (fun c => estimateTokens c.document.content)).sum

theorem truncateContextGo_inv (maxTokens : Nat) :
    ∀ (chunks : List SearchResultItem) (cur : Nat), cur ≤ maxTokens →
    truncateContextGo maxTokens chunks cur
        = chunks.take (truncateContextGo maxTokens chunks cur).length ∧
    cur + totalEstTokens (truncateContextGo maxTokens chunks cur) ≤ maxTokens ∧
    ((truncateContextGo maxTokens chunks cur).length < chunks.length →
      maxTokens < cur + totalEstTokens (truncateContextGo maxTokens chunks cur)
        + estimateTokens ((chunks.getD
            (truncateContextGo maxTokens chunks cur).length
            dummyItem).document.content)) := by
  intro chunks
  induction chunks with
  | nil =>
    intro cur hcur
    refine ⟨rfl, ?_, by simp [truncateContextGo]⟩
    simpa [truncateContextGo, totalEstTokens] using hcur
  | cons c rest ih =>
    intro cur hcur
    by_cases hbr : maxTokens < cur + estimateTokens c.document.content
    · have hr : truncateContextGo maxTokens (c :: rest) cur = [] := by
        simp [truncateContextGo, hbr]
      refine ⟨by simp [hr], ?_, ?_⟩
      · simp only [hr, totalEstTokens, List.map_nil, List.sum_nil]
        omega
      · intro _
        simp only [hr, totalEstTokens, List.map_nil, List.sum_nil,
          List.length_nil, List.getD_cons_zero]
        omega
    · have hcur2 : cur + estimateTokens c.document.content ≤ maxTokens := by
        omega
      obtain ⟨ihtake, ihtot, ihnext⟩ :=
        ih (cur + estimateTokens c.document.content) hcur2
      have hr : truncateContextGo maxTokens (c :: rest) cur
          = c :: truncateContextGo maxTokens rest
              (cur + estimateTokens c.document.content) := by
        simp [truncateContextGo, hbr]
      refine ⟨?_, ?_, ?_⟩
      · rw [hr, List.length_cons, List.take_succ_cons]
        exact congrArg _ ihtake
      · rw [hr]
        simp only [totalEstTokens, List.map_cons, List.sum_cons] at ihtot ⊢
        omega
      · intro hlt
        rw [hr] at hlt ⊢
        simp only [List.length_cons, Nat.add_lt_add_iff_right] at hlt
        have := ihnext hlt
        simp only [totalEstTokens, List.map_cons, List.sum_cons,
          List.length_cons, List.getD_cons_succ] at this ⊢
        omega

/-- Three ranked chunks whose contents estimate to 5, 4 and 3 tokens
(20, 16 and 12 characters). -/
def exDocA : StoredDoc :=
  { documentId := "d1", chunkId := "d1-0", content := List.replicate 20 'a' }

def exDocB : StoredDoc :=
  { documentId := "d1", chunkId := "d1-1", content := List.replicate 16 'b' }

def exDocC : StoredDoc :=
  { documentId := "d2", chunkId := "d2-0", content := List.replicate 12 'c' }

def exChunkA : SearchResultItem := { document := exDocA, score := 9, rank := 1 }

def exChunkB : SearchResultItem := { document := exDocB, score := 8, rank := 2 }

def exChunkC : SearchResultItem := { document := exDocC, score := 7, rank := 3 }

/-- C6: `truncateContext` keeps a prefix of the ranked chunks (no
backfill), the kept chunks' estimated tokens (`⌈chars/4⌉` each) total no
more than `maxTokens`, and when anything was dropped the first dropped
chunk would have pushed the total past the budget; for estimated sizes
`[5, 4, 3]` and a budget of 10, exactly the first two chunks survive. -/
theorem C6_truncateContext_greedy :
    (∀ (chunks : List SearchResultItem) (maxTokens : Nat),
      truncateContext chunks maxTokens
          = chunks.take (truncateContext chunks maxTokens).length ∧
      totalEstTokens (truncateContext chunks maxTokens) ≤ maxTokens ∧
      ((truncateContext chunks maxTokens).length < chunks.length →
        maxTokens < totalEstTokens (truncateContext chunks maxTokens)
          + estimateTokens ((chunks.getD
              (truncateContext chunks maxTokens).length
              dummyItem).document.content))) ∧
    truncateContext [exChunkA, exChunkB, exChunkC] 10 = [exChunkA, exChunkB] := by
  constructor
  · intro chunks maxTokens
    obtain ⟨h1, h2, h3⟩ := truncateContextGo_inv maxTokens chunks 0 (Nat.zero_le _)
    exact ⟨h1, by simpa using h2, fun h => by simpa using h3 h⟩
  · rfl

/-- Witness for C6 at the three-chunk example: something was dropped
(2 < 3 kept), and the theorem yields that the dropped chunk would have
exceeded the budget. -/
theorem C6_truncateContext_greedy_witness :
    (truncateContext [exChunkA, exChunkB, exChunkC] 10).length < 3 ∧
    10 < totalEstTokens (truncateContext [exChunkA, exChunkB, exChunkC] 10)
      + estimateTokens (([exChunkA, exChunkB, exChunkC].getD
          (truncateContext [exChunkA, exChunkB, exChunkC] 10).length
          dummyItem).document.content) :=
  ⟨by decide,
   (C6_truncateContext_greedy.1 [exChunkA, exChunkB, exChunkC] 10).2.2
     (by decide)⟩

/-! ## SemanticSearchService.search (part_008)

The pipeline for the default query path (no metadata filters, no context
window): embed the query, fetch `limit * 2` candidates from the vector
store, filter by `r.similarity >= threshold`, `slice(0, limit)`, and map
with 1-based ranks.  The store executes `WHERE similarity >= threshold
ORDER BY distance LIMIT k`; it is modelled as filter-then-take over its
rows, which the Pairwise hypothesis takes as sorted by descending
similarity (the `ORDER BY` contract).  `ensureInitialized` throws before
any work when the service is not initialized. -/

structure StoreRow where
  document : StoredDoc
  similarity : ℚ
  deriving Repr, DecidableEq

def dummyRow : StoreRow :=
  { document := { documentId := "", chunkId := "", content := [] },
    similarity := 0 }

structure SearchResponse where
  results : List SearchResultItem
  totalMatches : Nat
  deriving Repr, DecidableEq

def vectorStoreSearch (rows : List StoreRow) (limit : Nat)
    (threshold : ℚ) : List StoreRow :=
  (rows.filter fun r => decide (threshold ≤ r.similarity)).take limit

def assignRanks : Nat → List StoreRow → List SearchResultItem
  | _, [] => []
  | i, r :: rest =>
    { document := r.document, score := r.similarity, rank := i + 1 }
      :: assignRanks (i + 1) rest

def searchCore (rows : List StoreRow) (limit : Nat) (threshold : ℚ) :
    SearchResponse :=
  let vectorResults := vectorStoreSearch rows (limit * 2) threshold
  let filtered := vectorResults.filter fun r => decide (threshold ≤ r.similarity)
  { results := assignRanks 0 (filtered.take limit),
    totalMatches := filtered.length }

def semanticSearch (initialized : Bool) (rows : List StoreRow)
    (limit : Nat) (threshold : ℚ) : Except String SearchResponse :=
  if initialized then Except.ok (searchCore rows limit threshold)
  else Except.error "Search service not initialized. Call initialize() first."

theorem assignRanks_length : ∀ (i : Nat) (l : List StoreRow),
    (assignRanks i l).length = l.length := by
  intro i l
  induction l generalizing i with
  | nil => rfl
  | cons r rest ih => simp [assignRanks, ih]

theorem getD_eq_get {α : Type} :
    ∀ (l : List α) (j : Nat) (d : α) (h : j < l.length),
    l.getD j d = l.get ⟨j, h⟩ := by
  intro l
  induction l with
  | nil => intro j d h; simp at h
  | cons a rest ih =>
    intro j d h
    match j with
    | 0 => rfl
    | Nat.succ j => exact ih j d (by simpa using h)

theorem assignRanks_getD : ∀ (l : List StoreRow) (i j : Nat),
    j < l.length →
    (assignRanks i l).getD j dummyItem =
      { document := (l.getD j dummyRow).document,
        score := (l.getD j dummyRow).similarity,
        rank := i + j + 1 } := by
  intro l
  induction l with
  | nil => intro i j h; simp at h
  | cons r rest ih =>
    intro i j h
    match j with
    | 0 => rfl
    | Nat.succ j =>
      simp only [assignRanks, List.getD_cons_succ]
      rw [ih (i + 1) j (by simpa using h)]
      congr 1
      omega

theorem assignRanks_mem : ∀ (i : Nat) (l : List StoreRow)
    (x : SearchResultItem), x ∈ assignRanks i l →
    ∃ r ∈ l, x.score = r.similarity := by
  intro i l
  induction l generalizing i with
  | nil => intro x hx; simp [assignRanks] at hx
  | cons r rest ih =>
    intro x hx
    rcases List.mem_cons.mp hx with h | h
    · exact ⟨r, List.mem_cons_self _ _, by rw [h]⟩
    · obtain ⟨r2, hr2, hs⟩ := ih (i + 1) x h
      exact ⟨r2, List.mem_cons_of_mem _ hr2, hs⟩

theorem pairwise_getD_adjacent (l : List StoreRow)
    (h : List.Pairwise (fun a b => b.similarity ≤ a.similarity) l)
    (j : Nat) (hj : j + 1 < l.length) :
    (l.getD (j + 1) dummyRow).similarity ≤ (l.getD j dummyRow).similarity := by
  rw [getD_eq_get l (j + 1) dummyRow hj, getD_eq_get l j dummyRow (by omega)]
  exact List.pairwise_iff_get.mp h ⟨j, by omega⟩ ⟨j + 1, hj⟩ (by simp)

/-- C7: on an initialized service, given store rows sorted by descending
similarity, the pipeline fetches at most `2 × limit` candidates
(`totalMatches ≤ 2 × limit`), drops every candidate below `threshold`,
truncates to at most `limit` results, assigns 1-indexed ranks in
descending score order, and returns an empty result set with
`totalMatches = 0` — not an error — when nothing clears the threshold. -/
theorem C7_semanticSearch_pipeline :
    ∀ (rows : List StoreRow) (limit : Nat) (threshold : ℚ),
      List.Pairwise (fun a b => b.similarity ≤ a.similarity) rows →
      ∃ resp, semanticSearch true rows limit threshold = Except.ok resp ∧
        resp.results.length ≤ limit ∧
        resp.totalMatches ≤ limit * 2 ∧
        (∀ x ∈ resp.results, threshold ≤ x.score) ∧
        (∀ j, j < resp.results.length →
          (resp.results.getD j dummyItem).rank = j + 1) ∧
        (∀ j, j + 1 < resp.results.length →
          (resp.results.getD (j + 1) dummyItem).score ≤
            (resp.results.getD j dummyItem).score) ∧
        ((∀ r ∈ rows, r.similarity < threshold) →
          resp.results = [] ∧ resp.totalMatches = 0) := by
  intro rows limit threshold hsorted
  have hPtake : List.Pairwise (fun a b => b.similarity ≤ a.similarity)
      (((((rows.filter fun r => decide (threshold ≤ r.similarity)).take
          (limit * 2)).filter
            fun r => decide (threshold ≤ r.similarity)).take limit)) := by
    refine List.Pairwise.sublist (List.take_sublist _ _) ?_
    refine List.Pairwise.filter _ ?_
    refine List.Pairwise.sublist (List.take_sublist _ _) ?_
    exact List.Pairwise.filter _ hsorted
  refine ⟨searchCore rows limit threshold, rfl, ?_, ?_, ?_, ?_, ?_, ?_⟩
  · simp only [searchCore, vectorStoreSearch]
    rw [assignRanks_length, List.length_take]
    exact min_le_left _ _
  · simp only [searchCore, vectorStoreSearch]
    calc (((rows.filter fun r => decide (threshold ≤ r.similarity)).take
          (limit * 2)).filter
            fun r => decide (threshold ≤ r.similarity)).length
        ≤ ((rows.filter fun r => decide (threshold ≤ r.similarity)).take
            (limit * 2)).length := List.length_filter_le _ _
      _ ≤ limit * 2 := by rw [List.length_take]; exact min_le_left _ _
  · intro x hx
    simp only [searchCore, vectorStoreSearch] at hx
    obtain ⟨r, hr, hs⟩ := assignRanks_mem 0 _ x hx
    have hr2 := List.mem_of_mem_take hr
    have := (List.mem_filter.mp hr2).2
    rw [hs]
    exact of_decide_eq_true this
  · intro j hj
    simp only [searchCore, vectorStoreSearch] at hj ⊢
    rw [assignRanks_length] at hj
    rw [assignRanks_getD _ 0 j hj]
    simp
  · intro j hj
    simp only [searchCore, vectorStoreSearch] at hj ⊢
    rw [assignRanks_length] at hj
    rw [assignRanks_getD _ 0 (j + 1) hj, assignRanks_getD _ 0 j (by omega)]
    exact pairwise_getD_adjacent _ hPtake j hj
  · intro hall
    have hnil : rows.filter (fun r => decide (threshold ≤ r.similarity)) = [] := by
      rw [List.filter_eq_nil_iff]
      intro a ha
      simp only [decide_eq_true_eq]
      exact not_le.mpr (hall a ha)
    constructor
    · simp [searchCore, vectorStoreSearch, hnil, assignRanks]
    · simp [searchCore, vectorStoreSearch, hnil]

/-- A single store row with integral similarity 2, used as the C7
witness input. -/
def exRow : StoreRow := { document := exDocA, similarity := 2 }

/-- Witness for C7: one stored row with similarity 2, limit 1,
threshold 1; the single-row list is sorted. -/
theorem C7_semanticSearch_pipeline_witness :
    ∃ resp, semanticSearch true [exRow] 1 1 = Except.ok resp ∧
      resp.results.length ≤ 1 ∧
      resp.totalMatches ≤ 1 * 2 ∧
      (∀ x ∈ resp.results, (1 : ℚ) ≤ x.score) ∧
      (∀ j, j < resp.results.length →
        (resp.results.getD j dummyItem).rank = j + 1) ∧
      (∀ j, j + 1 < resp.results.length →
        (resp.results.getD (j + 1) dummyItem).score ≤
          (resp.results.getD j dummyItem).score) ∧
      ((∀ r ∈ [exRow], r.similarity < 1) →
        resp.results = [] ∧ resp.totalMatches = 0) :=
  C7_semanticSearch_pipeline [exRow] 1 1 (by simp)

/-! ## AnswerService.parseFinalAnswer (part_001)

`rawResult.indexOf('Final Answer:')`; on a hit, everything after the
marker, trimmed; otherwise the whole text, trimmed. -/

def finalAnswerMarker : List Char := "Final Answer:".toList

def parseFinalAnswer (rawResult : List Char) : List Char :=
  match jsIndexOf finalAnswerMarker rawResult with
  | some i => jsTrim (rawResult.drop (i + finalAnswerMarker.length))
  | none => jsTrim rawResult

theorem isPrefixOf_append_self : ∀ (pat post : List Char),
    pat.isPrefixOf (pat ++ post) = true := by
  intro pat post
  induction pat with
  | nil => simp [List.isPrefixOf]
  | cons c cs ih => simp [List.isPrefixOf, ih]

theorem jsIndexOf_none (pat : List Char) :
    ∀ s, (∀ j, occursAt pat s j = false) → jsIndexOf pat s = none := by
  intro s
  induction s with
  | nil =>
    intro h
    by_cases hp : pat = []
    · subst hp
      have := h 0
      simp [occursAt, List.isPrefixOf] at this
    · simp [jsIndexOf, hp]
  | cons c rest ih =>
    intro h
    have h0 : pat.isPrefixOf (c :: rest) = false := by
      simpa [occursAt] using h 0
    have hrec : jsIndexOf pat rest = none := ih (fun j => h (j + 1))
    simp [jsIndexOf, h0, hrec]

theorem jsIndexOf_append (pat post : List Char) :
    ∀ pre, (∀ j, j < pre.length →
      occursAt pat (pre ++ (pat ++ post)) j = false) →
    jsIndexOf pat (pre ++ (pat ++ post)) = some pre.length := by
  intro pre
  induction pre with
  | nil =>
    intro _
    show jsIndexOf pat (pat ++ post) = some 0
    cases hm : pat ++ post with
    | nil =>
      obtain ⟨h1, h2⟩ := List.append_eq_nil.mp hm
      subst h1
      rfl
    | cons c cs =>
      have hpref : pat.isPrefixOf (c :: cs) = true :=
        hm ▸ isPrefixOf_append_self pat post
      simp [jsIndexOf, hpref]
  | cons c pre ih =>
    intro h
    have h0 : pat.isPrefixOf (c :: (pre ++ (pat ++ post))) = false := by
      simpa [occursAt] using h 0 (by simp)
    have hrec := ih (fun j hj => h (j + 1) (by simpa using Nat.succ_lt_succ hj))
    show jsIndexOf pat (c :: (pre ++ (pat ++ post))) = some (pre.length + 1)
    simp [jsIndexOf, h0, hrec]

theorem drop_pre_marker (pre post : List Char) :
    (pre ++ (finalAnswerMarker ++ post)).drop
      (pre.length + finalAnswerMarker.length) = post := by
  rw [← List.append_assoc, ← List.length_append, List.drop_left]

/-- C8: `parseFinalAnswer` returns the trimmed text following the marker
`"Final Answer:"` when the marker occurs (at its first occurrence), and
the whole trimmed input when it does not; in particular
`"Reasoning: X. Final Answer: Y"` parses to `"Y"` and marker-free input
comes back trimmed and otherwise unchanged. -/
theorem C8_parseFinalAnswer_marker :
    (∀ pre post : List Char,
      (∀ j, j < pre.length →
        occursAt finalAnswerMarker (pre ++ (finalAnswerMarker ++ post)) j
          = false) →
      parseFinalAnswer (pre ++ (finalAnswerMarker ++ post)) = jsTrim post) ∧
    (∀ s : List Char, (∀ j, occursAt finalAnswerMarker s j = false) →
      parseFinalAnswer s = jsTrim s) ∧
    parseFinalAnswer "Reasoning: X. Final Answer: Y".toList = "Y".toList ∧
    parseFinalAnswer "  no marker here ".toList = "no marker here".toList := by
  refine ⟨?_, ?_, rfl, rfl⟩
  · intro pre post h
    simp only [parseFinalAnswer,
      jsIndexOf_append finalAnswerMarker post pre h]
    rw [drop_pre_marker]
  · intro s h
    simp only [parseFinalAnswer, jsIndexOf_none finalAnswerMarker s h]

/-- Witness for C8: prefix `"Q "` (marker-free) followed by the marker
and `" A"`; the parse returns the trimmed tail `"A"`. -/
theorem C8_parseFinalAnswer_marker_witness :
    parseFinalAnswer ("Q ".toList ++ (finalAnswerMarker ++ " A".toList))
      = jsTrim " A".toList :=
  C8_parseFinalAnswer_marker.1 "Q ".toList " A".toList (by decide)

/-! ## diversifyResults (part_008)

A `Map`-backed per-document counter: each result is kept while its
document's running count is below `maxPerDocument`; kept results bump the
count, skipped ones leave it unchanged. -/

theorem aGet_aSet_ne {α : Type} (l : List (String × α)) (k k2 : String)
    (v : α) (h : k2 ≠ k) : aGet (aSet l k v) k2 = aGet l k2 := by
  have hk : ¬ (k = k2) := fun hh => h hh.symm
  induction l with
  | nil =>
    simp only [aSet, aGet]
    rw [if_neg hk]
  | cons p rest ih =>
    simp only [aSet]
    by_cases hp : p.1 = k
    · rw [if_pos hp]
      simp only [aGet]
      rw [if_neg hk, if_neg (by rw [hp]; exact hk)]
    · rw [if_neg hp]
      simp only [aGet]
      by_cases hp2 : p.1 = k2
      · rw [if_pos hp2, if_pos hp2]
      · rw [if_neg hp2, if_neg hp2, ih]

def diversifyGo (maxPerDocument : Nat) :
    List SearchResultItem → List (String × Nat) → List SearchResultItem
  | [], _ => []
  | r :: rest, documentCounts =>
    let docId := r.document.documentId
    let count := (aGet documentCounts docId).getD 0
    if count < maxPerDocument then
      r :: diversifyGo maxPerDocument rest (aSet documentCounts docId (count + 1))
    else
      diversifyGo maxPerDocument rest documentCounts

def diversifyResults (results : List SearchResultItem)
    (maxPerDocument : Nat) : List SearchResultItem :=
  diversifyGo maxPerDocument results []

/-- Modelled from the claim's words, as the refinement reference: keep, in
original order, exactly those results preceded by fewer than
`maxPerDocument` earlier results of the same `documentId`.  `prev` is the
list of already-scanned results. -/
def diversifySpecGo (maxPerDocument : Nat) :
    List SearchResultItem → List SearchResultItem → List SearchResultItem
  | [], _ => []
  | r :: rest, prev =>
    if prev.countP
        (fun q => decide (q.document.documentId = r.document.documentId))
          < maxPerDocument then
      r :: diversifySpecGo maxPerDocument rest (prev ++ [r])
    else
      diversifySpecGo maxPerDocument rest (prev ++ [r])

def diversifySpec (results : List SearchResultItem)
    (maxPerDocument : Nat) : List SearchResultItem :=
  diversifySpecGo maxPerDocument results []

theorem diversifyGo_eq_spec (N : Nat) :
    ∀ (results : List SearchResultItem) (counts : List (String × Nat))
      (prev : List SearchResultItem),
    (∀ d : String,
      (aGet counts d).getD 0
          = prev.countP (fun q => decide (q.document.documentId = d)) ∨
      (N ≤ (aGet counts d).getD 0 ∧
        N ≤ prev.countP (fun q => decide (q.document.documentId = d)))) →
    diversifyGo N results counts = diversifySpecGo N results prev := by
  intro results
  induction results with
  | nil => intro counts prev _; rfl
  | cons r rest ih =>
    intro counts prev hinv
    have hcond : ((aGet counts r.document.documentId).getD 0 < N)
        = (prev.countP
            (fun q => decide (q.document.documentId = r.document.documentId))
              < N) := by
      rcases hinv r.document.documentId with h | ⟨h1, h2⟩
      · rw [h]
      · simp [Nat.not_lt.mpr h1, Nat.not_lt.mpr h2]
    simp only [diversifyGo, diversifySpecGo]
    by_cases hk : (aGet counts r.document.documentId).getD 0 < N
    · have hk2 : prev.countP
          (fun q => decide (q.document.documentId = r.document.documentId))
            < N := hcond ▸ hk
      rw [if_pos hk, if_pos hk2]
      have heq : (aGet counts r.document.documentId).getD 0
          = prev.countP
              (fun q => decide (q.document.documentId = r.document.documentId)) := by
        rcases hinv r.document.documentId with h | ⟨h1, _⟩
        · exact h
        · omega
      refine congrArg _ (ih _ _ ?_)
      intro d
      by_cases hd : d = r.document.documentId
      · subst hd
        left
        rw [aGet_aSet_self]
        simp only [Option.getD_some, List.countP_append, List.countP_cons,
          List.countP_nil, decide_eq_true_eq]
        simp [heq]
      · rw [aGet_aSet_ne counts r.document.documentId d
          ((aGet counts r.document.documentId).getD 0 + 1) hd]
        have hne2 : ¬ (r.document.documentId = d) := fun hh => hd hh.symm
        have hcount : (prev ++ [r]).countP
            (fun q => decide (q.document.documentId = d))
              = prev.countP (fun q => decide (q.document.documentId = d)) := by
          simp only [List.countP_append, List.countP_cons, List.countP_nil,
            decide_eq_true_eq]
          simp [hne2]
        rw [hcount]
        exact hinv d
    · have hk2 : ¬ prev.countP
          (fun q => decide (q.document.documentId = r.document.documentId))
            < N := by rw [← hcond]; exact hk
      rw [if_neg hk, if_neg hk2]
      refine ih _ _ ?_
      intro d
      by_cases hd : d = r.document.documentId
      · subst hd
        right
        refine ⟨by omega, ?_⟩
        have hpc : N ≤ prev.countP
            (fun q => decide (q.document.documentId = r.document.documentId)) := by
          rcases hinv r.document.documentId with hcase | ⟨h1, h2⟩
          · omega
          · exact h2
        simp only [List.countP_append, List.countP_cons, List.countP_nil,
          decide_eq_true_eq]
        simp
        omega
      · have hne2 : ¬ (r.document.documentId = d) := fun hh => hd hh.symm
        have hcount : (prev ++ [r]).countP
            (fun q => decide (q.document.documentId = d))
              = prev.countP (fun q => decide (q.document.documentId = d)) := by
          simp only [List.countP_append, List.countP_cons, List.countP_nil,
            decide_eq_true_eq]
          simp [hne2]
        rw [hcount]
        exact hinv d

/-- Five candidates from one document, ranked 1..5. -/
def exSameDoc : StoredDoc :=
  { documentId := "doc", chunkId := "doc-0", content := [] }

def exR1 : SearchResultItem := { document := exSameDoc, score := 5, rank := 1 }

def exR2 : SearchResultItem := { document := exSameDoc, score := 4, rank := 2 }

def exR3 : SearchResultItem := { document := exSameDoc, score := 3, rank := 3 }

def exR4 : SearchResultItem := { document := exSameDoc, score := 2, rank := 4 }

def exR5 : SearchResultItem := { document := exSameDoc, score := 1, rank := 5 }

/-- C9: for every ranked list and every `maxPerDocument = N ≥ 1`,
`diversifyResults` returns exactly the subsequence keeping, in original
order, the first `N` results of each `documentId`; with `N = 2` and five
candidates from one document ranked 1..5, only ranks 1 and 2 survive. -/
theorem C9_diversifyResults_cap :
    (∀ (results : List SearchResultItem) (N : Nat), 1 ≤ N →
      diversifyResults results N = diversifySpec results N) ∧
    diversifyResults [exR1, exR2, exR3, exR4, exR5] 2 = [exR1, exR2] := by
  constructor
  · intro results N _
    exact diversifyGo_eq_spec N results [] []
      (fun d => Or.inl (by simp [aGet]))
  · decide

/-- Witness for C9: `N = 2 ≥ 1`, one candidate; the implementation agrees
with the keep-first-N reference. -/
theorem C9_diversifyResults_cap_witness :
    1 ≤ 2 ∧ diversifyResults [exR1] 2 = diversifySpec [exR1] 2 :=
  ⟨by decide, C9_diversifyResults_cap.1 [exR1] 2 (by decide)⟩

end VectorMeanings
